import Mathlib

/-!
Shallow embedding of the CSV catalog parser of `src/utils.ts`
(`parseCSV`, its inner `parseLine` tokenizer and `cleanPrice` helper),
together with the data model of `src/types.ts` (`ProductVariant`,
`ProductGroup`).

Modelling conventions:
* JS strings are Lean `String`/`List Char`; JS numbers are exact
  rationals `ℚ` (NaN is represented as `Option.none` at parse time and
  collapses to `0` through `x || 0`, exactly as in the code); the
  `Infinity` forms of `parseFloat` are not modelled (no claim involves
  them, and every cell in scope parses to a finite decimal).
* The JS object `groups` (string-keyed record built incrementally) is an
  insertion-ordered association list; `Object.values` is `map Prod.snd`.
  JS enumerates integer-like keys first, but the final comparator below
  has no ties between distinct keys, so after sorting that enumeration
  order is unobservable and insertion order is a faithful model.
* `String.prototype.localeCompare` (default locale) is modelled for the
  ASCII range after the root collation: primary level compares
  characters case-insensitively, and when the primary keys tie the
  tertiary level puts lowercase before uppercase.
* The regexes `\s` and `.trim()` are modelled on the ASCII whitespace
  characters (space, tab, LF, VT, FF, CR); `Array.prototype.sort` is a
  stable merge sort driven by the comparator's sign.
-/

namespace StateProduct

/-- ASCII part of the JS whitespace class `\s` (space, tab, LF, VT, FF, CR). -/
def isJsSpace (c : Char) : Bool :=
  c = ' ' || c = '\t' || c = '\n' || c = '\x0b' || c = '\x0c' || c = '\r'

/-- Models `String.prototype.trim` on the character list. -/
def jsTrim (cs : List Char) : List Char :=
  ((cs.dropWhile isJsSpace).reverse.dropWhile isJsSpace).reverse

/-- `trim` at the `String` level. -/
def jsTrimS (s : String) : String := ⟨jsTrim s.data⟩

/-- Models `str.split(/\r?\n/)`: a `\r` is consumed only when directly
before a `\n`. `cur` is the accumulator for the current piece. -/
def splitNL : List Char → List Char → List String
  | [], cur => [⟨cur⟩]
  | '\r' :: '\n' :: rest, cur => (⟨cur⟩ : String) :: splitNL rest []
  | '\n' :: rest, cur => (⟨cur⟩ : String) :: splitNL rest []
  | c :: rest, cur => splitNL rest (cur ++ [c])

/-- Models `String.prototype.toLowerCase` (ASCII). -/
def jsToLower (cs : List Char) : List Char := cs.map Char.toLower

/-- Models `String.prototype.startsWith`. -/
def jsStartsWith (s pre : List Char) : Bool := pre.isPrefixOf s

/-- The character loop of the `parseLine` closure (src/utils.ts lines
11-33): `inQuotes` flag, accumulation buffer `cur`, fields pushed into
`acc` trimmed. A `"` while in quotes followed by another `"` appends a
literal quote and consumes both; any other `"` toggles the flag; a `,`
outside quotes ends the field. -/
def parseLineGo : List Char → Bool → List Char → List String → List String
  | [], _, cur, acc => acc ++ [⟨jsTrim cur⟩]
  | '"' :: '"' :: rest2, true, cur, acc => parseLineGo rest2 true (cur ++ ['"']) acc
  | '"' :: rest, inQuotes, cur, acc => parseLineGo rest (!inQuotes) cur acc
  | c :: rest, inQuotes, cur, acc =>
    if c = ',' && !inQuotes then parseLineGo rest inQuotes [] (acc ++ [⟨jsTrim cur⟩])
    else parseLineGo rest inQuotes (cur ++ [c]) acc

/-- `parseLine` (src/utils.ts lines 11-33). -/
def parseLine (line : String) : List String := parseLineGo line.data false [] []

/-- Decimal digits to a natural number. -/
def digitsToNat (ds : List Char) : ℕ := ds.foldl (fun n c => 10 * n + (c.toNat - 48)) 0

/-- The optional exponent suffix `e`/`E` `±` digits of a JS decimal
literal; an `e` not followed by at least one digit contributes nothing
(the valid literal prefix ends before it). -/
def expVal (cs : List Char) : Int :=
  match cs with
  | 'e' :: r | 'E' :: r =>
    match r with
    | '-' :: r2 =>
      let ds := r2.takeWhile Char.isDigit
      if ds = [] then 0 else -(digitsToNat ds : Int)
    | '+' :: r2 =>
      let ds := r2.takeWhile Char.isDigit
      if ds = [] then 0 else (digitsToNat ds : Int)
    | _ =>
      let ds := r.takeWhile Char.isDigit
      if ds = [] then 0 else (digitsToNat ds : Int)
  | _ => 0

/-- Models JS `parseFloat` over exact rationals: skip leading
whitespace, optional sign, integer digits, optional `.` and fraction
digits, optional exponent; `none` (= NaN) when no digit is found in the
mantissa; trailing garbage is ignored (longest valid prefix). The
literal `±d₁…dₖ.f₁…fₘe±x` denotes exactly
`± (digits of d₁…dₖf₁…fₘ) · 10^x / 10^m`, built here as a single
`Rat.divInt` of integers. The `Infinity` forms are not modelled. -/
def jsParseFloat (cs : List Char) : Option ℚ :=
  let cs1 := cs.dropWhile isJsSpace
  let sgn : Int := if cs1.head? = some '-' then -1 else 1
  let cs2 : List Char :=
    if cs1.head? = some '-' || cs1.head? = some '+' then cs1.tail else cs1
  let ip := cs2.takeWhile Char.isDigit
  let cs3 := cs2.dropWhile Char.isDigit
  let fp : List Char := if cs3.head? = some '.' then cs3.tail.takeWhile Char.isDigit else []
  let cs4 : List Char := if cs3.head? = some '.' then cs3.tail.dropWhile Char.isDigit else cs3
  if ip = [] && fp = [] then none
  else
    let e := expVal cs4
    some (Rat.divInt (sgn * (digitsToNat (ip ++ fp) : Int) * (10 : Int) ^ e.toNat)
      ((10 : Int) ^ (fp.length + (-e).toNat)))

/-- Models `x || 0` applied to a parse result: NaN (`none`) and `±0` are
falsy and give `0`; every other number passes through. -/
def jsOrZero : Option ℚ → ℚ
  | none => 0
  | some q => q

/-- Models `s || dflt` for strings: the empty string is falsy. -/
def jsOr (s dflt : String) : String := if s = "" then dflt else s

/-- `cleanPrice` (src/utils.ts lines 62-65): strip `$`, `,` and
whitespace, then `parseFloat(...) || 0`. -/
def cleanPrice (val : String) : ℚ :=
  if val = "" then 0
  else jsOrZero (jsParseFloat (val.data.filter fun c => !(c = '$' || c = ',' || isJsSpace c)))

/-- `ProductVariant` of src/types.ts, with `number` as `ℚ`. -/
structure ProductVariant where
  sku : String
  description : String
  unit : String
  stdPrice : ℚ
  floorPrice : ℚ
  givePrice : ℚ
  gsaPrice : ℚ
  weight : ℚ
  productLine : String
  family : String
deriving DecidableEq, Repr

/-- `ProductGroup` of src/types.ts. -/
structure ProductGroup where
  parentName : String
  family : String
  variants : List ProductVariant
deriving DecidableEq, Repr

/-- The variant literal pushed at src/utils.ts lines 71-82. Indices 0-10
always exist when the length guard `parts.length < 11` has passed, so
`getD _ ""` is exact there; index 13 may be absent, in which case
`parseFloat(undefined)` is NaN and `|| 0` yields `0`. -/
def mkVariant (parts : List String) : ProductVariant where
  productLine := parts.getD 0 ""
  family := jsOr (parts.getD 1 "") "General"
  sku := parts.getD 3 ""
  description := parts.getD 4 ""
  unit := parts.getD 5 ""
  stdPrice := cleanPrice (parts.getD 6 "")
  floorPrice := cleanPrice (parts.getD 8 "")
  givePrice := cleanPrice (parts.getD 9 "")
  gsaPrice := cleanPrice (parts.getD 10 "")
  weight := match parts.get? 13 with
    | some w => jsOrZero (jsParseFloat w.data)
    | none => 0

/-- Property read `groups[key]` on the insertion-ordered record. -/
def jsLookup : List (String × ProductGroup) → String → Option ProductGroup
  | [], _ => none
  | (k, g) :: rest, key => if k = key then some g else jsLookup rest key

/-- The mutation `groups[key].variants.push(v)`: the entry stored under
`key` gets `v` appended to its variant list, all others are unchanged. -/
def jsPush : List (String × ProductGroup) → String → ProductVariant →
    List (String × ProductGroup)
  | [], _, _ => []
  | (k, g) :: rest, key, v =>
    if k = key then (k, { g with variants := g.variants ++ [v] }) :: jsPush rest key v
    else (k, g) :: jsPush rest key v

/-- The section-boundary test of src/utils.ts line 42 (applied to the
already-trimmed line). -/
def isSentinel (line : String) : Bool := jsStartsWith (jsToLower line.data) "scsclass".data

/-- The skip test of src/utils.ts line 44 (applied to the
already-trimmed line). -/
def isSkip (line : String) : Bool :=
  line = "" || jsStartsWith (jsToLower line.data) "productlinedescription".data

/-- One iteration of the for-loop body of `parseCSV` for a non-sentinel
line (src/utils.ts lines 44-82), applied to the already-trimmed line:
skip empty/repeated-header lines, drop short rows, lazily create the
parent group, drop duplicate SKUs, otherwise push the new variant. -/
def stepRow (line : String) (groups : List (String × ProductGroup)) :
    List (String × ProductGroup) :=
  if isSkip line then groups
  else
    let parts := parseLine line
    if parts.length < 11 then groups
    else
      let parentName := jsOr (parts.getD 2 "") "Uncategorized"
      let family := jsOr (parts.getD 1 "") "General"
      let groups1 := match jsLookup groups parentName with
        | none => groups ++ [(parentName, ⟨parentName, family, []⟩)]
        | some _ => groups
      let sku := parts.getD 3 ""
      let dup := match jsLookup groups1 parentName with
        | some g => g.variants.any fun v => v.sku = sku
        | none => false
      if dup then groups1
      else jsPush groups1 parentName (mkVariant parts)

/-- The for-loop of `parseCSV` (src/utils.ts lines 37-83) over the data
lines (`lines[1..]`), threading the `groups` record: each line is
trimmed, a `scsclass` line breaks out of the loop, every other line is
handled by `stepRow`. -/
def processLines : List String → List (String × ProductGroup) → List (String × ProductGroup)
  | [], groups => groups
  | l :: rest, groups =>
    let line := jsTrimS l
    if isSentinel line then groups
    else processLines rest (stepRow line groups)

/-- Three-way comparison on `ℕ`. -/
def cmpNat (a b : ℕ) : Ordering := if a < b then .lt else if b < a then .gt else .eq

/-- Lexicographic three-way comparison on lists of naturals (a proper
prefix compares below). -/
def cmpListNat : List ℕ → List ℕ → Ordering
  | [], [] => .eq
  | [], _ :: _ => .lt
  | _ :: _, [] => .gt
  | a :: as, b :: bs =>
    match cmpNat a b with
    | .eq => cmpListNat as bs
    | o => o

/-- Primary collation key: case-folded code points. -/
def lowerKey (s : String) : List ℕ := s.data.map fun c => (Char.toLower c).toNat

/-- Tertiary collation key: lowercase before uppercase at each position. -/
def caseKey (s : String) : List ℕ := s.data.map fun c => if c.isLower then 0 else 1

/-- Models `a.localeCompare(b)` in the default (root) locale, restricted
to ASCII: case-insensitive primary comparison, then lowercase-first on
primary ties. Distinct strings never compare equal under this model. -/
def jsLocaleCompare (a b : String) : Ordering :=
  match cmpListNat (lowerKey a) (lowerKey b) with
  | .eq => cmpListNat (caseKey a) (caseKey b)
  | o => o

/-- The comparator handed to `.sort` at src/utils.ts line 85, as the
"may stay before" relation of a stable sort. -/
def groupLE (a b : ProductGroup) : Bool :=
  match jsLocaleCompare a.parentName b.parentName with
  | .gt => false
  | _ => true

/-- `groupLE` as a decidable relation, for the sort. -/
def groupLe (a b : ProductGroup) : Prop := groupLE a b = true

instance : DecidableRel groupLe := fun a b => instDecidableEqBool (groupLE a b) true

/-- `parseCSV` (src/utils.ts lines 4-86). `Array.prototype.sort` is a
stable sort driven by the comparator's sign; it is modelled by the
(stable) insertion sort over `groupLe`. With this comparator distinct
parent names never tie, so any stable sorting algorithm — and, ties
being absent, any sorting algorithm at all — returns the same list. -/
def parseCSV (csv : String) : List ProductGroup :=
  if csv = "" then []
  else
    let lines := splitNL (jsTrim csv.data) []
    if lines.length < 2 then []
    else
      let groups := processLines (lines.drop 1) []
      (groups.map Prod.snd).insertionSort groupLe

/-- Plain code-point lexicographic order on strings, the "standard
lexicographic string ordering" of the specification (stated from the
spec's words, for comparison with the code's comparator). -/
def lexLe (a b : String) : Bool :=
  match cmpListNat (a.data.map Char.toNat) (b.data.map Char.toNat) with
  | .gt => false
  | _ => true

/-- Invariant of the `groups` record maintained by the parse loop: keys
are pairwise distinct, each group's `parentName` equals its key, and no
group holds two variants with the same `sku`. -/
structure GoodState (groups : List (String × ProductGroup)) : Prop where
  keysNodup : (groups.map Prod.fst).Nodup
  keyEq : ∀ p ∈ groups, p.2.parentName = p.1
  skuNodup : ∀ p ∈ groups, (p.2.variants.map fun v => v.sku).Nodup

/-- All five numeric fields of a variant are nonnegative. -/
def VariantNonneg (v : ProductVariant) : Prop :=
  0 ≤ v.stdPrice ∧ 0 ≤ v.floorPrice ∧ 0 ≤ v.givePrice ∧ 0 ≤ v.gsaPrice ∧ 0 ≤ v.weight

/-- Every variant of every group in the record has nonnegative numeric
fields. -/
def NonnegState (groups : List (String × ProductGroup)) : Prop :=
  ∀ p ∈ groups, ∀ v ∈ p.2.variants, VariantNonneg v

/-! ### Order-theoretic facts about the comparator -/

theorem cmpNat_eq_iff {a b : ℕ} : cmpNat a b = Ordering.eq ↔ a = b := by
  unfold cmpNat
  split
  · rename_i h; simp; omega
  · split
    · rename_i h; simp; omega
    · rename_i h1 h2; simp; omega

theorem cmpNat_swap (a b : ℕ) : cmpNat b a = (cmpNat a b).swap := by
  rcases Nat.lt_trichotomy a b with h | h | h
  · simp [cmpNat, h, Nat.lt_asymm h, Ordering.swap]
  · subst h; simp [cmpNat, Nat.lt_irrefl, Ordering.swap]
  · simp [cmpNat, h, Nat.lt_asymm h, Ordering.swap]

theorem cmpNat_lt_trans {a b c : ℕ} (h1 : cmpNat a b = Ordering.lt)
    (h2 : cmpNat b c = Ordering.lt) : cmpNat a c = Ordering.lt := by
  unfold cmpNat at *
  split at h1
  · split at h2
    · rename_i hab hbc; rw [if_pos (Nat.lt_trans hab hbc)]
    · split at h2 <;> cases h2
  · split at h1 <;> cases h1

theorem cmpListNat_cons {x y : ℕ} {xs ys : List ℕ} :
    cmpListNat (x :: xs) (y :: ys) =
      match cmpNat x y with
      | Ordering.eq => cmpListNat xs ys
      | o => o := rfl

theorem cmpListNat_cons_eq {x y : ℕ} {xs ys : List ℕ} (h : cmpNat x y = Ordering.eq) :
    cmpListNat (x :: xs) (y :: ys) = cmpListNat xs ys := by
  rw [cmpListNat_cons, h]

theorem cmpListNat_cons_lt {x y : ℕ} {xs ys : List ℕ} (h : cmpNat x y = Ordering.lt) :
    cmpListNat (x :: xs) (y :: ys) = Ordering.lt := by
  rw [cmpListNat_cons, h]

theorem cmpListNat_cons_gt {x y : ℕ} {xs ys : List ℕ} (h : cmpNat x y = Ordering.gt) :
    cmpListNat (x :: xs) (y :: ys) = Ordering.gt := by
  rw [cmpListNat_cons, h]

theorem cmpListNat_eq_iff : ∀ {xs ys : List ℕ}, cmpListNat xs ys = Ordering.eq ↔ xs = ys := by
  intro xs
  induction xs with
  | nil => intro ys; cases ys <;> simp [cmpListNat]
  | cons x xs ih =>
    intro ys
    cases ys with
    | nil => simp [cmpListNat]
    | cons y ys =>
      simp only [cmpListNat]
      cases h : cmpNat x y with
      | eq =>
        have hxy : x = y := cmpNat_eq_iff.mp h
        simp [hxy, ih]
      | lt =>
        have hxy : x ≠ y := fun he => by simp [cmpNat_eq_iff.mpr he] at h
        simp [hxy]
      | gt =>
        have hxy : x ≠ y := fun he => by simp [cmpNat_eq_iff.mpr he] at h
        simp [hxy]

theorem cmpListNat_swap : ∀ (xs ys : List ℕ), cmpListNat ys xs = (cmpListNat xs ys).swap := by
  intro xs
  induction xs with
  | nil => intro ys; cases ys <;> simp [cmpListNat, Ordering.swap]
  | cons x xs ih =>
    intro ys
    cases ys with
    | nil => simp [cmpListNat, Ordering.swap]
    | cons y ys =>
      simp only [cmpListNat, cmpNat_swap x y]
      cases h : cmpNat x y <;> simp [Ordering.swap, ih]

theorem cmpListNat_lt_trans : ∀ {xs ys zs : List ℕ},
    cmpListNat xs ys = Ordering.lt → cmpListNat ys zs = Ordering.lt →
    cmpListNat xs zs = Ordering.lt := by
  intro xs
  induction xs with
  | nil =>
    intro ys zs h1 h2
    cases ys with
    | nil => exact h2
    | cons y ys =>
      cases zs with
      | nil => cases h2
      | cons z zs => simp [cmpListNat]
  | cons x xs ih =>
    intro ys zs h1 h2
    cases ys with
    | nil => cases h1
    | cons y ys =>
      cases zs with
      | nil => cases h2
      | cons z zs =>
        rcases hxy : cmpNat x y with _ | _ | _
        · rcases hyz : cmpNat y z with _ | _ | _
          · exact cmpListNat_cons_lt (cmpNat_lt_trans hxy hyz)
          · have he : y = z := cmpNat_eq_iff.mp hyz
            subst he
            exact cmpListNat_cons_lt hxy
          · rw [cmpListNat_cons_gt hyz] at h2; simp at h2
        · have he : x = y := cmpNat_eq_iff.mp hxy
          subst he
          rw [cmpListNat_cons_eq hxy] at h1
          rcases hyz : cmpNat x z with _ | _ | _
          · exact cmpListNat_cons_lt hyz
          · rw [cmpListNat_cons_eq hyz] at h2
            rw [cmpListNat_cons_eq hyz]
            exact ih h1 h2
          · rw [cmpListNat_cons_gt hyz] at h2; simp at h2
        · rw [cmpListNat_cons_gt hxy] at h1; simp at h1

theorem jsLocaleCompare_swap (a b : String) :
    jsLocaleCompare b a = (jsLocaleCompare a b).swap := by
  unfold jsLocaleCompare
  rw [cmpListNat_swap (lowerKey a) (lowerKey b), cmpListNat_swap (caseKey a) (caseKey b)]
  cases cmpListNat (lowerKey a) (lowerKey b) <;>
    cases cmpListNat (caseKey a) (caseKey b) <;> rfl

theorem jsLocaleCompare_le_trans {a b c : String}
    (h1 : jsLocaleCompare a b ≠ Ordering.gt) (h2 : jsLocaleCompare b c ≠ Ordering.gt) :
    jsLocaleCompare a c ≠ Ordering.gt := by
  unfold jsLocaleCompare at *
  cases hab : cmpListNat (lowerKey a) (lowerKey b) with
  | gt => rw [hab] at h1; exact absurd rfl h1
  | eq =>
    have he : lowerKey a = lowerKey b := cmpListNat_eq_iff.mp hab
    rw [hab] at h1
    cases hbc : cmpListNat (lowerKey b) (lowerKey c) with
    | gt => rw [hbc] at h2; exact absurd rfl h2
    | lt => rw [he, hbc]; simp
    | eq =>
      have he2 : lowerKey b = lowerKey c := cmpListNat_eq_iff.mp hbc
      rw [hbc] at h2
      rw [he, hbc]
      cases htab : cmpListNat (caseKey a) (caseKey b) with
      | gt => rw [htab] at h1; exact absurd rfl h1
      | eq =>
        have : caseKey a = caseKey b := cmpListNat_eq_iff.mp htab
        rw [this]
        exact h2
      | lt =>
        cases htbc : cmpListNat (caseKey b) (caseKey c) with
        | gt => rw [htbc] at h2; exact absurd rfl h2
        | eq =>
          have : caseKey b = caseKey c := cmpListNat_eq_iff.mp htbc
          rw [← this, htab]; simp
        | lt => rw [cmpListNat_lt_trans htab htbc]; simp
  | lt =>
    cases hbc : cmpListNat (lowerKey b) (lowerKey c) with
    | gt => rw [hbc] at h2; exact absurd rfl h2
    | eq =>
      have he2 : lowerKey b = lowerKey c := cmpListNat_eq_iff.mp hbc
      rw [← he2, hab]; simp
    | lt => rw [cmpListNat_lt_trans hab hbc]; simp

theorem groupLE_eq_true_iff {a b : ProductGroup} :
    groupLE a b = true ↔ jsLocaleCompare a.parentName b.parentName ≠ Ordering.gt := by
  unfold groupLE
  cases h : jsLocaleCompare a.parentName b.parentName <;> simp

instance : IsTrans ProductGroup groupLe :=
  ⟨fun _ _ _ h1 h2 => groupLE_eq_true_iff.mpr
    (jsLocaleCompare_le_trans (groupLE_eq_true_iff.mp h1) (groupLE_eq_true_iff.mp h2))⟩

instance : IsTotal ProductGroup groupLe := by
  refine ⟨fun a b => ?_⟩
  by_cases h : jsLocaleCompare a.parentName b.parentName = Ordering.gt
  · right
    refine groupLE_eq_true_iff.mpr ?_
    rw [jsLocaleCompare_swap, h]
    simp [Ordering.swap]
  · left
    exact groupLE_eq_true_iff.mpr h

/-! ### The groups record: lookup and push lemmas -/

theorem jsLookup_eq_none_iff {groups : List (String × ProductGroup)} {key : String} :
    jsLookup groups key = none ↔ key ∉ groups.map Prod.fst := by
  induction groups with
  | nil => simp [jsLookup]
  | cons p rest ih =>
    obtain ⟨k, g⟩ := p
    by_cases h : k = key
    · subst h; simp [jsLookup]
    · simp [jsLookup, h, ih, Ne.symm h]

theorem jsLookup_append_some {groups rest : List (String × ProductGroup)} {key : String}
    {g : ProductGroup} (h : jsLookup groups key = some g) :
    jsLookup (groups ++ rest) key = some g := by
  induction groups with
  | nil => cases h
  | cons p gs ih =>
    obtain ⟨k, g'⟩ := p
    by_cases hk : k = key
    · subst hk
      simpa [jsLookup] using h
    · rw [List.cons_append]
      simp only [jsLookup, if_neg hk] at h ⊢
      exact ih h

theorem jsLookup_append_none {groups rest : List (String × ProductGroup)} {key : String}
    (h : jsLookup groups key = none) :
    jsLookup (groups ++ rest) key = jsLookup rest key := by
  induction groups with
  | nil => rfl
  | cons p gs ih =>
    obtain ⟨k, g'⟩ := p
    by_cases hk : k = key
    · subst hk; simp [jsLookup] at h
    · rw [List.cons_append]
      simp only [jsLookup, if_neg hk] at h ⊢
      exact ih h

theorem jsPush_eq_map (groups : List (String × ProductGroup)) (key : String)
    (v : ProductVariant) :
    jsPush groups key v = groups.map fun p =>
      if p.1 = key then (p.1, { p.2 with variants := p.2.variants ++ [v] }) else p := by
  induction groups with
  | nil => rfl
  | cons p gs ih =>
    obtain ⟨k, g⟩ := p
    by_cases hk : k = key <;> simp [jsPush, hk, ih]

theorem jsPush_map_fst (groups : List (String × ProductGroup)) (key : String)
    (v : ProductVariant) : (jsPush groups key v).map Prod.fst = groups.map Prod.fst := by
  induction groups with
  | nil => rfl
  | cons p gs ih =>
    obtain ⟨k, g⟩ := p
    by_cases hk : k = key <;> simp [jsPush, hk, ih]

theorem jsLookup_push_self {groups : List (String × ProductGroup)} {key : String}
    {v : ProductVariant} {g : ProductGroup} (h : jsLookup groups key = some g) :
    jsLookup (jsPush groups key v) key = some { g with variants := g.variants ++ [v] } := by
  induction groups with
  | nil => cases h
  | cons p gs ih =>
    obtain ⟨k, g'⟩ := p
    by_cases hk : k = key
    · subst hk
      simp only [jsLookup, if_pos rfl] at h
      cases h
      simp [jsPush, jsLookup]
    · simp only [jsLookup, if_neg hk] at h
      simp only [jsPush, if_neg hk, jsLookup]
      exact ih h

theorem jsLookup_push_ne {groups : List (String × ProductGroup)} {key key' : String}
    {v : ProductVariant} (h : key ≠ key') :
    jsLookup (jsPush groups key v) key' = jsLookup groups key' := by
  induction groups with
  | nil => rfl
  | cons p gs ih =>
    obtain ⟨k, g'⟩ := p
    by_cases hk : k = key
    · subst hk
      simp only [jsPush, if_pos rfl, jsLookup]
      rw [if_neg h, if_neg h]
      exact ih
    · simp only [jsPush, if_neg hk, jsLookup]
      by_cases hk' : k = key'
      · rw [if_pos hk', if_pos hk']
      · rw [if_neg hk', if_neg hk']
        exact ih

theorem jsLookup_of_mem_nodup {groups : List (String × ProductGroup)}
    (hnd : (groups.map Prod.fst).Nodup) {q : String × ProductGroup} (hq : q ∈ groups) :
    jsLookup groups q.1 = some q.2 := by
  induction groups with
  | nil => cases hq
  | cons p gs ih =>
    rw [List.map_cons, List.nodup_cons] at hnd
    rcases List.mem_cons.mp hq with rfl | hq
    · simp [jsLookup]
    · have hne : p.1 ≠ q.1 := fun he => hnd.1 (he ▸ List.mem_map_of_mem Prod.fst hq)
      simp only [jsLookup]
      rw [if_neg hne]
      exact ih hnd.2 hq

/-! ### Loop invariants -/

theorem goodState_nil : GoodState [] :=
  ⟨List.nodup_nil, fun _ h => absurd h (List.not_mem_nil _), fun _ h => absurd h (List.not_mem_nil _)⟩

theorem goodState_append_new {groups : List (String × ProductGroup)} (h : GoodState groups)
    {key fam : String} (hnone : jsLookup groups key = none) :
    GoodState (groups ++ [(key, ⟨key, fam, []⟩)]) := by
  refine ⟨?_, ?_, ?_⟩
  · rw [List.map_append, List.nodup_append]
    refine ⟨h.keysNodup, List.nodup_singleton key, ?_⟩
    intro a ha hb
    simp only [List.map_cons, List.map_nil, List.mem_singleton] at hb
    subst hb
    exact (jsLookup_eq_none_iff.mp hnone) ha
  · intro p hp
    rcases List.mem_append.mp hp with hp | hp
    · exact h.keyEq p hp
    · simp only [List.mem_singleton] at hp; subst hp; rfl
  · intro p hp
    rcases List.mem_append.mp hp with hp | hp
    · exact h.skuNodup p hp
    · simp only [List.mem_singleton] at hp; subst hp; exact List.nodup_nil

theorem goodState_push {groups : List (String × ProductGroup)} {key : String}
    {v : ProductVariant} {g : ProductGroup} (h : GoodState groups)
    (hg : jsLookup groups key = some g)
    (hdup : (g.variants.any fun w => w.sku = v.sku) = false) :
    GoodState (jsPush groups key v) := by
  rw [jsPush_eq_map]
  refine ⟨?_, ?_, ?_⟩
  · have := jsPush_map_fst groups key v
    rw [jsPush_eq_map] at this
    rw [this]
    exact h.keysNodup
  · intro p hp
    rcases List.mem_map.mp hp with ⟨q, hq, rfl⟩
    split
    · exact h.keyEq q hq
    · exact h.keyEq q hq
  · intro p hp
    rcases List.mem_map.mp hp with ⟨q, hq, rfl⟩
    split
    · rename_i hk
      have hlq : jsLookup groups q.1 = some q.2 := jsLookup_of_mem_nodup h.keysNodup hq
      rw [hk] at hlq
      have hqg : q.2 = g := by rw [hlq] at hg; exact Option.some_injective _ hg
      subst hqg
      simp only [List.map_append, List.map_cons, List.map_nil]
      rw [List.nodup_append]
      refine ⟨h.skuNodup q hq, List.nodup_singleton _, ?_⟩
      intro a ha hb
      simp only [List.mem_singleton] at hb
      subst hb
      rcases List.mem_map.mp ha with ⟨w, hw, hws⟩
      have : (q.2.variants.any fun w => w.sku = v.sku) = true :=
        List.any_eq_true.mpr ⟨w, hw, by simp [hws]⟩
      rw [this] at hdup; cases hdup
    · exact h.skuNodup q hq

theorem jsLookup_append_single_self {groups : List (String × ProductGroup)} {key : String}
    {g : ProductGroup} (h : jsLookup groups key = none) :
    jsLookup (groups ++ [(key, g)]) key = some g := by
  rw [jsLookup_append_none h]
  simp [jsLookup]

theorem processLines_cons (l : String) (rest : List String)
    (groups : List (String × ProductGroup)) :
    processLines (l :: rest) groups =
      if isSentinel (jsTrimS l) then groups
      else processLines rest (stepRow (jsTrimS l) groups) := rfl

theorem stepRow_good {line : String} {groups : List (String × ProductGroup)}
    (h : GoodState groups) : GoodState (stepRow line groups) := by
  unfold stepRow
  split
  · exact h
  · dsimp only
    split
    · exact h
    · cases hlk : jsLookup groups (jsOr ((parseLine line).getD 2 "") "Uncategorized") with
      | none =>
        rw [jsLookup_append_single_self hlk]
        simp only [List.any_nil, Bool.false_eq_true, if_false]
        exact goodState_push (goodState_append_new h hlk)
          (jsLookup_append_single_self hlk) rfl
      | some g =>
        dsimp only
        rw [hlk]
        dsimp only
        split
        · exact h
        · rename_i hdup
          exact goodState_push h hlk (Bool.of_not_eq_true hdup)

theorem stepRow_family (line : String) {groups : List (String × ProductGroup)}
    {key : String} {g : ProductGroup} (h : jsLookup groups key = some g) :
    ∃ g', jsLookup (stepRow line groups) key = some g' ∧
      g'.family = g.family ∧ g'.parentName = g.parentName := by
  unfold stepRow
  split
  · exact ⟨g, h, rfl, rfl⟩
  · dsimp only
    split
    · exact ⟨g, h, rfl, rfl⟩
    · cases hlk : jsLookup groups (jsOr ((parseLine line).getD 2 "") "Uncategorized") with
      | none =>
        have hne : jsOr ((parseLine line).getD 2 "") "Uncategorized" ≠ key := by
          intro he; rw [he, h] at hlk; cases hlk
        rw [jsLookup_append_single_self hlk]
        simp only [List.any_nil, Bool.false_eq_true, if_false]
        refine ⟨g, ?_, rfl, rfl⟩
        rw [jsLookup_push_ne hne, jsLookup_append_some h]
      | some g1 =>
        dsimp only
        rw [hlk]
        dsimp only
        split
        · exact ⟨g, h, rfl, rfl⟩
        · by_cases hk : jsOr ((parseLine line).getD 2 "") "Uncategorized" = key
          · subst hk
            exact ⟨_, jsLookup_push_self h, rfl, rfl⟩
          · exact ⟨g, by rw [jsLookup_push_ne hk]; exact h, rfl, rfl⟩

theorem processLines_good : ∀ (lines : List String) (groups : List (String × ProductGroup)),
    GoodState groups → GoodState (processLines lines groups) := by
  intro lines
  induction lines with
  | nil => exact fun _ h => h
  | cons l rest ih =>
    intro groups h
    rw [processLines_cons]
    split
    · exact h
    · exact ih _ (stepRow_good h)

theorem processLines_family : ∀ (lines : List String) (groups : List (String × ProductGroup))
    (key : String) (g : ProductGroup), jsLookup groups key = some g →
    ∃ g', jsLookup (processLines lines groups) key = some g' ∧
      g'.family = g.family ∧ g'.parentName = g.parentName := by
  intro lines
  induction lines with
  | nil => exact fun groups key g h => ⟨g, h, rfl, rfl⟩
  | cons l rest ih =>
    intro groups key g h
    rw [processLines_cons]
    split
    · exact ⟨g, h, rfl, rfl⟩
    · obtain ⟨g1, hg1, hf1, hp1⟩ := stepRow_family (jsTrimS l) h
      obtain ⟨g2, hg2, hf2, hp2⟩ := ih _ key g1 hg1
      exact ⟨g2, hg2, hf2.trans hf1, hp2.trans hp1⟩

/-! ### Character provenance: every character of a tokenized field comes
from the source text -/

theorem mem_of_mem_jsTrim {c : Char} {cs : List Char} (h : c ∈ jsTrim cs) : c ∈ cs := by
  unfold jsTrim at h
  rw [List.mem_reverse] at h
  have h2 := (List.dropWhile_sublist _).subset h
  rw [List.mem_reverse] at h2
  exact (List.dropWhile_sublist _).subset h2

theorem splitNL_subset : ∀ (cs cur : List Char), ∀ s ∈ splitNL cs cur, ∀ c ∈ s.data,
    c ∈ cur ∨ c ∈ cs := by
  intro cs cur
  induction cs, cur using splitNL.induct with
  | case1 cur =>
    intro s hs c hc
    rw [show splitNL [] cur = [⟨cur⟩] from rfl, List.mem_singleton] at hs
    subst hs
    exact Or.inl hc
  | case2 rest cur ih =>
    intro s hs c hc
    rw [show splitNL ('\r' :: '\n' :: rest) cur = (⟨cur⟩ : String) :: splitNL rest [] from
      rfl] at hs
    rcases List.mem_cons.mp hs with rfl | hs
    · exact Or.inl hc
    · rcases ih s hs c hc with h | h
      · cases h
      · exact Or.inr (List.mem_cons_of_mem _ (List.mem_cons_of_mem _ h))
  | case3 rest cur ih =>
    intro s hs c hc
    rw [show splitNL ('\n' :: rest) cur = (⟨cur⟩ : String) :: splitNL rest [] from rfl] at hs
    rcases List.mem_cons.mp hs with rfl | hs
    · exact Or.inl hc
    · rcases ih s hs c hc with h | h
      · cases h
      · exact Or.inr (List.mem_cons_of_mem _ h)
  | case4 ch rest cur h1 h2 ih =>
    intro s hs c hc
    rw [splitNL.eq_4 cur ch rest h1 h2] at hs
    rcases ih s hs c hc with h | h
    · rcases List.mem_append.mp h with h | h
      · exact Or.inl h
      · rw [List.mem_singleton] at h
        subst h
        exact Or.inr (List.mem_cons_self _ _)
    · exact Or.inr (List.mem_cons_of_mem _ h)

theorem parseLineGo_subset : ∀ (cs : List Char) (q : Bool) (cur : List Char)
    (acc : List String), ∀ s ∈ parseLineGo cs q cur acc, ∀ c ∈ s.data,
    (∃ t ∈ acc, c ∈ t.data) ∨ c ∈ cur ∨ c ∈ cs := by
  intro cs q cur acc
  induction cs, q, cur, acc using parseLineGo.induct with
  | case1 q cur acc =>
    intro s hs c hc
    rw [show parseLineGo [] q cur acc = acc ++ [⟨jsTrim cur⟩] from rfl] at hs
    rcases List.mem_append.mp hs with hs | hs
    · exact Or.inl ⟨s, hs, hc⟩
    · rw [List.mem_singleton] at hs
      subst hs
      exact Or.inr (Or.inl (mem_of_mem_jsTrim hc))
  | case2 rest2 cur acc ih =>
    intro s hs c hc
    rw [show parseLineGo ('"' :: '"' :: rest2) true cur acc =
      parseLineGo rest2 true (cur ++ ['"']) acc from rfl] at hs
    rcases ih s hs c hc with h | h | h
    · exact Or.inl h
    · rcases List.mem_append.mp h with h | h
      · exact Or.inr (Or.inl h)
      · rw [List.mem_singleton] at h
        subst h
        exact Or.inr (Or.inr (List.mem_cons_self _ _))
    · exact Or.inr (Or.inr (List.mem_cons_of_mem _ (List.mem_cons_of_mem _ h)))
  | case3 rest q cur acc hcond ih =>
    intro s hs c hc
    rw [parseLineGo.eq_3 q cur acc rest hcond] at hs
    rcases ih s hs c hc with h | h | h
    · exact Or.inl h
    · exact Or.inr (Or.inl h)
    · exact Or.inr (Or.inr (List.mem_cons_of_mem _ h))
  | case4 ch rest q cur acc hc1 hc2 hcomma ih =>
    intro s hs c hc
    rw [parseLineGo.eq_4 q cur acc ch rest hc2 hc1, if_pos hcomma] at hs
    rcases ih s hs c hc with h | h | h
    · rcases h with ⟨t, ht, htc⟩
      rcases List.mem_append.mp ht with ht | ht
      · exact Or.inl ⟨t, ht, htc⟩
      · rw [List.mem_singleton] at ht
        subst ht
        exact Or.inr (Or.inl (mem_of_mem_jsTrim htc))
    · cases h
    · exact Or.inr (Or.inr (List.mem_cons_of_mem _ h))
  | case5 ch rest q cur acc hc1 hc2 hncomma ih =>
    intro s hs c hc
    rw [parseLineGo.eq_4 q cur acc ch rest hc2 hc1, if_neg hncomma] at hs
    rcases ih s hs c hc with h | h | h
    · exact Or.inl h
    · rcases List.mem_append.mp h with h | h
      · exact Or.inr (Or.inl h)
      · rw [List.mem_singleton] at h
        subst h
        exact Or.inr (Or.inr (List.mem_cons_self _ _))
    · exact Or.inr (Or.inr (List.mem_cons_of_mem _ h))

theorem parseLine_subset {line s : String} (hs : s ∈ parseLine line) {c : Char}
    (hc : c ∈ s.data) : c ∈ line.data := by
  rcases parseLineGo_subset line.data false [] [] s hs c hc with h | h | h
  · rcases h with ⟨t, ht, _⟩; cases ht
  · cases h
  · exact h

/-! ### Sign analysis: a price cell without a minus sign cannot produce
a negative number -/

theorem jsParseFloat_nonneg {cs : List Char} (hm : '-' ∉ cs) {q : ℚ}
    (hq : jsParseFloat cs = some q) : 0 ≤ q := by
  have hm1 : (cs.dropWhile isJsSpace).head? ≠ some '-' := by
    intro he
    cases h1 : cs.dropWhile isJsSpace with
    | nil => rw [h1] at he; cases he
    | cons a r =>
      rw [h1] at he
      simp only [List.head?_cons, Option.some.injEq] at he
      subst he
      exact hm ((List.dropWhile_sublist _).subset (h1 ▸ List.mem_cons_self _ _))
  unfold jsParseFloat at hq
  dsimp only at hq
  rw [if_neg hm1] at hq
  split_ifs at hq
  all_goals
    first
    | exact Option.noConfusion hq
    | (rw [Option.some.injEq] at hq
       subst hq
       exact Rat.divInt_nonneg (by positivity) (by positivity))

theorem jsOrZero_nonneg {o : Option ℚ} (h : ∀ q, o = some q → 0 ≤ q) : 0 ≤ jsOrZero o := by
  cases o with
  | none => exact le_refl 0
  | some q => exact h q rfl

theorem cleanPrice_nonneg {val : String} (hm : '-' ∉ val.data) : 0 ≤ cleanPrice val := by
  unfold cleanPrice
  split
  · exact le_refl 0
  · refine jsOrZero_nonneg fun q hq => jsParseFloat_nonneg ?_ hq
    intro hmem
    exact hm (List.mem_of_mem_filter hmem)

theorem mkVariant_nonneg {parts : List String} (hm : ∀ p ∈ parts, '-' ∉ p.data) :
    VariantNonneg (mkVariant parts) := by
  have hget : ∀ i, '-' ∉ (parts.getD i "").data := by
    intro i
    by_cases hi : i < parts.length
    · rw [List.getD_eq_getElem parts "" hi]
      exact hm _ (List.getElem_mem hi)
    · rw [List.getD_eq_default parts "" (Nat.le_of_not_lt hi)]
      intro h; cases h
  refine ⟨cleanPrice_nonneg (hget 6), cleanPrice_nonneg (hget 8), cleanPrice_nonneg (hget 9),
    cleanPrice_nonneg (hget 10), ?_⟩
  show 0 ≤ (mkVariant parts).weight
  unfold mkVariant
  dsimp only
  cases hw : parts.get? 13 with
  | none => exact le_refl 0
  | some w =>
    exact jsOrZero_nonneg fun q hq => jsParseFloat_nonneg (hm w (List.get?_mem hw)) hq

theorem nonnegState_jsPush {groups : List (String × ProductGroup)} {key : String}
    {v : ProductVariant} (h : NonnegState groups) (hv : VariantNonneg v) :
    NonnegState (jsPush groups key v) := by
  intro p hp w hw
  rw [jsPush_eq_map] at hp
  rcases List.mem_map.mp hp with ⟨q, hq, rfl⟩
  split at hw
  · dsimp only at hw
    rcases List.mem_append.mp hw with hw | hw
    · exact h q hq w hw
    · rw [List.mem_singleton] at hw
      subst hw
      exact hv
  · exact h q hq w hw

theorem nonnegState_append_new {groups : List (String × ProductGroup)}
    (h : NonnegState groups) {key pn fam : String} :
    NonnegState (groups ++ [(key, ⟨pn, fam, []⟩)]) := by
  intro p hp w hw
  rcases List.mem_append.mp hp with hp | hp
  · exact h p hp w hw
  · rw [List.mem_singleton] at hp
    subst hp
    cases hw

theorem nonnegState_stepRow {line : String} {groups : List (String × ProductGroup)}
    (hline : ∀ p ∈ parseLine line, '-' ∉ p.data) (h : NonnegState groups) :
    NonnegState (stepRow line groups) := by
  unfold stepRow
  split
  · exact h
  · dsimp only
    split
    · exact h
    · cases hlk : jsLookup groups (jsOr ((parseLine line).getD 2 "") "Uncategorized") with
      | none =>
        rw [jsLookup_append_single_self hlk]
        simp only [List.any_nil, Bool.false_eq_true, if_false]
        exact nonnegState_jsPush (nonnegState_append_new h) (mkVariant_nonneg hline)
      | some g =>
        dsimp only
        rw [hlk]
        dsimp only
        split
        · exact h
        · exact nonnegState_jsPush h (mkVariant_nonneg hline)

theorem nonnegState_processLines : ∀ (lines : List String)
    (groups : List (String × ProductGroup)),
    (∀ l ∈ lines, ∀ p ∈ parseLine (jsTrimS l), '-' ∉ p.data) → NonnegState groups →
    NonnegState (processLines lines groups) := by
  intro lines
  induction lines with
  | nil => exact fun _ _ h => h
  | cons l rest ih =>
    intro groups hline h
    rw [processLines_cons]
    split
    · exact h
    · exact ih _ (fun l' hl' => hline l' (List.mem_cons_of_mem _ hl'))
        (nonnegState_stepRow (hline l (List.mem_cons_self _ _)) h)

/-! ### parseCSV-level helpers -/

theorem parseCSV_eq_sort {csv : String} (h0 : ¬ csv = "")
    (h2 : ¬ (splitNL (jsTrim csv.data) []).length < 2) :
    parseCSV csv =
      ((processLines ((splitNL (jsTrim csv.data) []).drop 1) []).map Prod.snd).insertionSort
        groupLe := by
  unfold parseCSV
  rw [if_neg h0]
  dsimp only
  rw [if_neg h2]

theorem parseCSV_eq_nil_or_sort (csv : String) :
    parseCSV csv = [] ∨
      parseCSV csv =
        ((processLines ((splitNL (jsTrim csv.data) []).drop 1) []).map Prod.snd).insertionSort
          groupLe := by
  by_cases h0 : csv = ""
  · left
    rw [h0]
    rfl
  · by_cases h2 : (splitNL (jsTrim csv.data) []).length < 2
    · left
      unfold parseCSV
      rw [if_neg h0]
      dsimp only
      rw [if_pos h2]
    · right
      exact parseCSV_eq_sort h0 h2

theorem mem_parseCSV {csv : String} {g : ProductGroup} (hg : g ∈ parseCSV csv) :
    g ∈ (processLines ((splitNL (jsTrim csv.data) []).drop 1) []).map Prod.snd := by
  rcases parseCSV_eq_nil_or_sort csv with h | h
  · rw [h] at hg
    cases hg
  · rw [h] at hg
    exact (List.perm_insertionSort groupLe _).mem_iff.mp hg

theorem map_parentName_values {groups : List (String × ProductGroup)} (h : GoodState groups) :
    (groups.map Prod.snd).map (fun g => g.parentName) = groups.map Prod.fst := by
  rw [List.map_map]
  exact List.map_congr_left fun p hp => h.keyEq p hp

/-! ### The claims -/

/-- C1 counterexample: the claim "no variant field is ever negative" is
false. In the document "h\nPL,F,Par,A1,D,EA,-5,x,0,0,0" the std-price
cell is "-5"; `cleanPrice` strips nothing from it, `parseFloat` returns
-5, and `-5 || 0` keeps -5, so the parsed catalog holds a variant with
`stdPrice < 0`. -/
theorem C1_counterexample :
    ∃ g ∈ parseCSV "h\nPL,F,Par,A1,D,EA,-5,x,0,0,0", ∃ v ∈ g.variants, v.stdPrice < 0 := by
  decide

/-- C1 (amended): a price cell that is absent (empty) or unparsable
yields exactly 0, and all price/weight fields of every variant of the
parsed catalog are nonnegative provided no minus sign occurs in the
document; a parsable negative cell, however, passes through (see the
counterexample), so unconditional nonnegativity does not hold. -/
theorem C1_nonneg_fields :
    cleanPrice "" = 0 ∧
    (∀ val : String,
      jsParseFloat (val.data.filter fun c => !(c = '$' || c = ',' || isJsSpace c)) = none →
      cleanPrice val = 0) ∧
    (∀ csv : String, '-' ∉ csv.data →
      ∀ g ∈ parseCSV csv, ∀ v ∈ g.variants,
        0 ≤ v.stdPrice ∧ 0 ≤ v.floorPrice ∧ 0 ≤ v.givePrice ∧ 0 ≤ v.gsaPrice ∧
          0 ≤ v.weight) := by
  refine ⟨rfl, ?_, ?_⟩
  · intro val h
    unfold cleanPrice
    split
    · rfl
    · rw [h]
      rfl
  · intro csv hminus g hg v hv
    rcases List.mem_map.mp (mem_parseCSV hg) with ⟨p, hp, rfl⟩
    have hlines : ∀ l ∈ (splitNL (jsTrim csv.data) []).drop 1,
        ∀ p' ∈ parseLine (jsTrimS l), '-' ∉ p'.data := by
      intro l hl p' hp' hc
      have h1 : '-' ∈ (jsTrimS l).data := parseLine_subset hp' hc
      have h2 : '-' ∈ l.data := mem_of_mem_jsTrim h1
      have h3 : l ∈ splitNL (jsTrim csv.data) [] := List.drop_subset _ _ hl
      rcases splitNL_subset _ _ l h3 '-' h2 with h4 | h4
      · cases h4
      · exact hminus (mem_of_mem_jsTrim h4)
    exact nonnegState_processLines _ [] hlines
      (fun _ hq => absurd hq (List.not_mem_nil _)) p hp v hv

/-- C1 witness: the amended theorem applied at concrete inputs — the
unparsable cell "n/a" cleans to 0, and in the minus-free document
"h\nPL,F,Acme,A1,D,EA,$10.00,x,1,2,3" every variant field is ≥ 0. -/
theorem C1_nonneg_fields_witness :
    cleanPrice "n/a" = 0 ∧
    ∀ g ∈ parseCSV "h\nPL,F,Acme,A1,D,EA,$10.00,x,1,2,3", ∀ v ∈ g.variants,
      0 ≤ v.stdPrice ∧ 0 ≤ v.floorPrice ∧ 0 ≤ v.givePrice ∧ 0 ≤ v.gsaPrice ∧ 0 ≤ v.weight :=
  ⟨C1_nonneg_fields.2.1 "n/a" (by decide), C1_nonneg_fields.2.2 _ (by decide)⟩

/-- C2: `parse` returns the empty catalog for the empty document and for
every document that, after line-ending normalization and trimming,
yields fewer than 2 lines. -/
theorem C2_short_input (csv : String)
    (h : csv = "" ∨ (splitNL (jsTrim csv.data) []).length < 2) :
    parseCSV csv = [] := by
  unfold parseCSV
  rcases h with rfl | h
  · rw [if_pos rfl]
  · split
    · rfl
    · dsimp only
      rw [if_pos h]

/-- C2 witness: the theorem applied to the empty document and to the
one-line document "hello". -/
theorem C2_short_input_witness :
    parseCSV "" = [] ∧ parseCSV "hello" = [] :=
  ⟨C2_short_input "" (Or.inl rfl), C2_short_input "hello" (Or.inr (by decide))⟩

/-- C3: a line whose trimmed content starts (case-insensitively) with
"scsclass" stops the parse loop: every line after it is discarded, so
the state after processing `ls₁ ++ l :: ls₂` equals the state after
processing `ls₁ ++ [l]` alone, whatever `ls₂` holds; end to end, a
well-formed row after the sentinel is absent from the catalog. -/
theorem C3_sentinel_stops :
    (∀ (groups : List (String × ProductGroup)) (ls₁ : List String) (l : String)
      (ls₂ : List String), isSentinel (jsTrimS l) = true →
      processLines (ls₁ ++ l :: ls₂) groups = processLines (ls₁ ++ [l]) groups) ∧
    parseCSV "h\nSCSClass,x\nPL,F,Acme,A1,D,EA,1,x,1,1,1" = [] := by
  constructor
  · intro groups ls₁ l ls₂ h
    induction ls₁ generalizing groups with
    | nil =>
      rw [List.nil_append, List.nil_append, processLines_cons, processLines_cons,
        if_pos h, if_pos h]
    | cons a as ih =>
      rw [List.cons_append, List.cons_append, processLines_cons, processLines_cons]
      split
      · rfl
      · exact ih _
  · decide

/-- C3 witness: the stop lemma applied at a concrete sentinel line with a
well-formed row after it. -/
theorem C3_sentinel_stops_witness :
    processLines
        (["PL,F,Acme,A1,D,EA,1,x,1,1,1"] ++ "SCSClass,x" :: ["PL,F,Zed,Z1,D,EA,1,x,1,1,1"]) [] =
      processLines (["PL,F,Acme,A1,D,EA,1,x,1,1,1"] ++ ["SCSClass,x"]) [] :=
  C3_sentinel_stops.1 [] ["PL,F,Acme,A1,D,EA,1,x,1,1,1"] "SCSClass,x"
    ["PL,F,Zed,Z1,D,EA,1,x,1,1,1"] (by decide)

/-- C4: within a group SKUs are unique — in every parsed catalog no group
holds two variants with the same `sku` — and a data row whose parent
group already holds a variant with that row's `sku` leaves the state
unchanged (the row is silently dropped, the first occurrence wins). -/
theorem C4_duplicate_sku :
    (∀ csv : String, ∀ g ∈ parseCSV csv, ((g.variants.map fun v => v.sku).Nodup)) ∧
    (∀ (l : String) (rest : List String) (groups : List (String × ProductGroup))
      (grp : ProductGroup),
      isSentinel (jsTrimS l) = false → isSkip (jsTrimS l) = false →
      ¬ (parseLine (jsTrimS l)).length < 11 →
      jsLookup groups (jsOr ((parseLine (jsTrimS l)).getD 2 "") "Uncategorized") = some grp →
      (grp.variants.any fun v => v.sku = (parseLine (jsTrimS l)).getD 3 "") = true →
      processLines (l :: rest) groups = processLines rest groups) := by
  constructor
  · intro csv g hg
    rcases List.mem_map.mp (mem_parseCSV hg) with ⟨p, hp, rfl⟩
    exact (processLines_good _ [] goodState_nil).skuNodup p hp
  · intro l rest groups grp hs hk hlen hlk hdup
    rw [processLines_cons, if_neg (by rw [hs]; exact Bool.false_ne_true)]
    have hstep : stepRow (jsTrimS l) groups = groups := by
      unfold stepRow
      rw [if_neg (by rw [hk]; exact Bool.false_ne_true)]
      try dsimp only
      rw [if_neg hlen]
      try dsimp only
      rw [hlk]
      try dsimp only
      rw [hlk]
      try dsimp only
      rw [hdup]
      rw [if_pos rfl]
    rw [hstep]

/-- C4 witness: part one applied to a document repeating sku "A1", part
two applied to a concrete state already holding sku "A1" under parent
"Acme" and a row duplicating it. -/
theorem C4_duplicate_sku_witness :
    (∀ g ∈ parseCSV "h\nPL,F,Acme,A1,D,EA,1,x,1,1,1\nPL,F,Acme,A1,D,EA,9,x,9,9,9",
      ((g.variants.map fun v => v.sku).Nodup)) ∧
    processLines ["PL,F,Acme,A1,D,EA,1,x,1,1,1"]
        [("Acme",
          { parentName := "Acme", family := "F",
            variants := [mkVariant (parseLine "PL,F,Acme,A1,D,EA,9,x,9,9,9")] })] =
      processLines []
        [("Acme",
          { parentName := "Acme", family := "F",
            variants := [mkVariant (parseLine "PL,F,Acme,A1,D,EA,9,x,9,9,9")] })] :=
  ⟨C4_duplicate_sku.1 _,
   C4_duplicate_sku.2 _ _ _
     { parentName := "Acme", family := "F",
       variants := [mkVariant (parseLine "PL,F,Acme,A1,D,EA,9,x,9,9,9")] }
     (by decide) (by decide) (by decide) (by decide) (by decide)⟩

/-- C5 counterexample: the output is NOT sorted by a standard
(code-point) lexicographic string ordering. With parents "a" and "B" the
comparator `localeCompare` puts "a" first (case-insensitive primary
level), yet in code-point order "B" < "a": the parsed order ["a", "B"]
violates `lexLe`. -/
theorem C5_counterexample :
    (parseCSV "h\nP,F,a,S1,D,U,1,x,1,1,1\nP,F,B,S2,D,U,1,x,1,1,1").map
        (fun g => g.parentName) = ["a", "B"] ∧
      lexLe "a" "B" = false := by
  decide

/-- C5 (amended): the catalog holds exactly one group per distinct
resolved parentName (the parentName list is duplicate-free), the groups
are sorted by the locale-aware comparator of `localeCompare` (not by
code-point lexicographic order), and the sort only permutes the groups
accumulated by the loop — variant lists ride along untouched, in
first-seen insertion order. -/
theorem C5_sorted_groups :
    (∀ csv : String, List.Pairwise groupLe (parseCSV csv)) ∧
    (∀ csv : String, ((parseCSV csv).map fun g => g.parentName).Nodup) ∧
    (∀ csv : String, ¬ csv = "" → ¬ (splitNL (jsTrim csv.data) []).length < 2 →
      (parseCSV csv).Perm
        ((processLines ((splitNL (jsTrim csv.data) []).drop 1) []).map Prod.snd)) := by
  refine ⟨?_, ?_, ?_⟩
  · intro csv
    rcases parseCSV_eq_nil_or_sort csv with h | h
    · rw [h]
      exact List.Pairwise.nil
    · rw [h]
      exact List.sorted_insertionSort groupLe _
  · intro csv
    rcases parseCSV_eq_nil_or_sort csv with h | h
    · rw [h]
      exact List.nodup_nil
    · rw [h]
      have hgood := processLines_good ((splitNL (jsTrim csv.data) []).drop 1) [] goodState_nil
      have hperm := (List.perm_insertionSort groupLe
        ((processLines ((splitNL (jsTrim csv.data) []).drop 1) []).map Prod.snd)).map
          (fun g => g.parentName)
      rw [hperm.nodup_iff, map_parentName_values hgood]
      exact hgood.keysNodup
  · intro csv h0 h2
    rw [parseCSV_eq_sort h0 h2]
    exact List.perm_insertionSort groupLe _

/-- C5 witness: the permutation clause applied to a concrete two-parent
document (parents "Zeta" then "Alpha"). -/
theorem C5_sorted_groups_witness :
    (parseCSV "h\nPL,F,Zeta,Z1,D,EA,1,x,1,1,1\nPL,F,Alpha,A1,D,EA,1,x,1,1,1").Perm
      ((processLines
          ((splitNL
              (jsTrim ("h\nPL,F,Zeta,Z1,D,EA,1,x,1,1,1\nPL,F,Alpha,A1,D,EA,1,x,1,1,1" :
                String).data) []).drop 1) []).map Prod.snd) :=
  C5_sorted_groups.2.2 _ (by decide) (by decide)

/-- C6: the tokenizer resolves quoting as specified — a comma inside
quotes does not split (`a,"b,c",d` gives three fields) and a doubled
quote inside a quoted region becomes one literal quote character
(`"he said ""hi"""` gives the single field `he said "hi"`). -/
theorem C6_tokenizer_quoting :
    parseLine "a,\"b,c\",d" = ["a", "b,c", "d"] ∧
    parseLine "\"he said \"\"hi\"\"\"" = ["he said \"hi\""] := by
  decide

/-- C7: price cleaning strips `$`, `,` and whitespace and parses the rest
as a decimal with fallback 0: "$1,234.50" ↦ 1234.5, "" ↦ 0, "n/a" ↦ 0,
and in general any value whose stripped remainder fails to parse maps
to 0. -/
theorem C7_clean_price :
    cleanPrice "$1,234.50" = 1234.5 ∧ cleanPrice "" = 0 ∧ cleanPrice "n/a" = 0 ∧
    (∀ val : String,
      jsParseFloat (val.data.filter fun c => !(c = '$' || c = ',' || isJsSpace c)) = none →
      cleanPrice val = 0) := by
  refine ⟨?_, by decide, by decide, ?_⟩
  · have h1 : cleanPrice "$1,234.50" = Rat.divInt 2469 2 := by decide
    have h2 : (Rat.divInt 2469 2 : ℚ) = 1234.5 := by norm_num [Rat.divInt_eq_div]
    rw [h1, h2]
  · intro val h
    unfold cleanPrice
    split
    · rfl
    · rw [h]
      rfl

/-- C7 witness: the fallback clause applied to the concrete unparsable
value "abc". -/
theorem C7_clean_price_witness : cleanPrice "abc" = 0 :=
  C7_clean_price.2.2.2 "abc" (by decide)

/-- C8: a group's `family` comes from the first row that created the
group — once a key is present in the state, processing any further lines
leaves that group's `family` unchanged — and end to end a second row
with the same parent but family "F2" does not overwrite "F1". -/
theorem C8_family_first_wins :
    (∀ (lines : List String) (groups : List (String × ProductGroup)) (key : String)
      (g : ProductGroup), jsLookup groups key = some g →
      ∃ g', jsLookup (processLines lines groups) key = some g' ∧ g'.family = g.family) ∧
    (parseCSV "h\nP,F1,Acme,A1,D,U,1,x,1,1,1\nP,F2,Acme,A2,D,U,1,x,1,1,1").map
        (fun g => (g.parentName, g.family)) = [("Acme", "F1")] := by
  constructor
  · intro lines groups key g h
    obtain ⟨g', h1, h2, _⟩ := processLines_family lines groups key g h
    exact ⟨g', h1, h2⟩
  · decide

/-- C8 witness: the preservation clause applied to a concrete state
holding group "Acme" with family "F1" and a subsequent row carrying
family "F2". -/
theorem C8_family_first_wins_witness :
    ∃ g', jsLookup (processLines ["P,F2,Acme,A2,D,U,1,x,1,1,1"]
        [("Acme", ⟨"Acme", "F1", []⟩)]) "Acme" = some g' ∧ g'.family = "F1" :=
  C8_family_first_wins.1 ["P,F2,Acme,A2,D,U,1,x,1,1,1"] [("Acme", ⟨"Acme", "F1", []⟩)]
    "Acme" ⟨"Acme", "F1", []⟩ (by decide)

/-- C9: a variant's `family` is taken from its own source row (field
index 1, defaulted to "General"), not copied from its group: in a
document whose second "Acme" row carries family "F2", the group keeps
family "F1" while its variants carry ["F1", "F2"]. -/
theorem C9_variant_own_family :
    (∀ parts : List String, (mkVariant parts).family = jsOr (parts.getD 1 "") "General") ∧
    ∃ g ∈ parseCSV "h\nP,F1,Acme,A1,D,U,1,x,1,1,1\nP,F2,Acme,A2,D,U,1,x,1,1,1",
      g.family = "F1" ∧ (g.variants.map fun v => v.family) = ["F1", "F2"] :=
  ⟨fun _ => rfl, by decide⟩

/-- C10: a data row with between 11 and 13 tokenized fields has no field
index 13, reading it does not fail — the weight becomes exactly 0 — and
the row is still included: the 11-field document parses to one group
with one variant of weight 0 (and stdPrice 10 from "$10.00"). -/
theorem C10_weight_missing_zero :
    (∀ parts : List String, 11 ≤ parts.length → parts.length ≤ 13 →
      (mkVariant parts).weight = 0) ∧
    parseCSV "h\nPL,F,Acme,A1,D,EA,$10.00,x,1,2,3" =
      [{ parentName := "Acme", family := "F",
         variants := [{ sku := "A1", description := "D", unit := "EA",
                        stdPrice := 10, floorPrice := 1, givePrice := 2, gsaPrice := 3,
                        weight := 0, productLine := "PL", family := "F" }] }] := by
  constructor
  · intro parts _ h13
    have h : parts.get? 13 = none := List.get?_eq_none.mpr h13
    unfold mkVariant
    dsimp only
    rw [h]
  · decide

/-- C10 witness: the weight clause applied at a concrete 11-field part
list. -/
theorem C10_weight_missing_zero_witness :
    (mkVariant ["PL", "F", "Acme", "A1", "D", "EA", "$10.00", "x", "1", "2", "3"]).weight = 0 :=
  C10_weight_missing_zero.1 _ (by decide) (by decide)

end StateProduct
